import Mathlib

/-!
# Verification of the CTChecker reachability core

Shallow embedding of the reachability-analysis core of a model checker for
networks of timed automata: clock-bound maps (`src/clockbounds/clockbounds.cc`),
symbolic states of the zone graph with reference clocks (`src/refzg/state.cc`),
run statistics (`src/algorithms/stats.cc`) and the generic reachability driver
(`include/tchecker/algorithms/reach/algorithm.hh`), together with theorems about
the properties stated in the specification.
-/

namespace CTChecker

/-! ## Clock-bound maps (`src/clockbounds/clockbounds.cc`)

A clock-bound map `map_t` is an array of bounds indexed by clock ids.
`bound_t` and `NO_BOUND` are declared in `clockbounds.hh`; following the
specification, `NO_BOUND` is strictly smaller than every integer, so a bound
is modelled as `Option Int` with `none` standing for `NO_BOUND` (minus
infinity). -/

/-- A clock bound: `none` is `NO_BOUND`, `some z` an integer bound.
Modelled from the spec: `bound_t`/`NO_BOUND` come from `clockbounds.hh` which
is not part of the sources; the spec states that `NO_BOUND` is strictly
smaller than every integer. -/
abbrev Bound := Option Int

/-- Order on bounds: `NO_BOUND` is below everything; integers compare as
usual. This is the comparison `bound <= map[id]` used by `update`. -/
def bleB : Bound → Bound → Bool
  | none, _ => true
  | some _, none => false
  | some a, some b => decide (a ≤ b)

/-- Maximum of two bounds with respect to `bleB`: keep the current bound
when the new one does not strictly exceed it. -/
def bmax (a b : Bound) : Bound := if bleB b a then a else b

/-- `update(map, id, bound)` from `clockbounds.cc`: if `bound <= map[id]`
return `false` and leave the map unchanged, otherwise write `bound` into
entry `id` and return `true`. -/
def update (m : List Bound) (id : Nat) (b : Bound) : List Bound × Bool :=
  if bleB b (m.getD id none) then (m, false) else (m.set id b, true)

/-- Prefix of the map-level update loop: apply `update` at indices
`0, 1, ..., k-1` in order, OR-ing the modification flags. -/
def updateUpTo (m upd : List Bound) : Nat → List Bound × Bool
  | 0 => (m, false)
  | k + 1 =>
    let r := updateUpTo m upd k
    let r2 := update r.1 k (upd.getD k none)
    (r2.1, r.2 || r2.2)

/-- `update(map, upd)` from `clockbounds.cc`: loop over every clock id of the
map and update entry by entry; return whether some entry was modified. -/
def updateAll (m upd : List Bound) : List Bound × Bool := updateUpTo m upd m.length

/-- `clear(map)` from `clockbounds.cc`: set every entry to `NO_BOUND`;
a freshly cleared map of capacity `n`. -/
def clearMap (n : Nat) : List Bound := List.replicate n none

/- Basic lemmas on bounds. -/

lemma bleB_refl (a : Bound) : bleB a a = true := by
  cases a <;> simp [bleB]

lemma bleB_none_right (a : Bound) : bleB a none = (a = none : Bool) := by
  cases a <;> simp [bleB]

lemma bmax_none_left (b : Bound) : bmax none b = b := by
  cases b <;> simp [bmax, bleB]

lemma bmax_eq_left_of_le {a b : Bound} (h : bleB b a = true) : bmax a b = a := by
  simp [bmax, h]

lemma bmax_eq_right_of_not_le {a b : Bound} (h : bleB b a = false) : bmax a b = b := by
  simp [bmax, h]

/- getD / set helper lemmas. -/

lemma getD_set_self : ∀ (l : List Bound) (i : Nat) (b : Bound), i < l.length →
    (l.set i b).getD i none = b := by
  intro l
  induction l with
  | nil => intro i b h; simp at h
  | cons x xs ih =>
    intro i b h
    cases i with
    | zero => simp [List.set]
    | succ j =>
      simp only [List.set, List.getD_cons_succ]
      exact ih j b (by simpa using h)

lemma getD_set_ne : ∀ (l : List Bound) (i j : Nat) (b : Bound), j ≠ i →
    (l.set i b).getD j none = l.getD j none := by
  intro l
  induction l with
  | nil => intro i j b _; simp [List.set]
  | cons x xs ih =>
    intro i j b hne
    cases i with
    | zero =>
      cases j with
      | zero => exact absurd rfl hne
      | succ k => simp [List.set]
    | succ i' =>
      cases j with
      | zero => simp [List.set]
      | succ k =>
        simp only [List.set, List.getD_cons_succ]
        exact ih i' k b (by intro hc; exact hne (by rw [hc]))

lemma getD_eq_none_of_le : ∀ (l : List Bound) (i : Nat), l.length ≤ i →
    l.getD i none = none := by
  intro l
  induction l with
  | nil => intro i _; simp
  | cons x xs ih =>
    intro i h
    cases i with
    | zero => simp at h
    | succ j => simpa using ih j (by simpa using h)

lemma list_ext_getD : ∀ (l1 l2 : List Bound), l1.length = l2.length →
    (∀ i, l1.getD i none = l2.getD i none) → l1 = l2 := by
  intro l1
  induction l1 with
  | nil =>
    intro l2 hlen _
    cases l2 with
    | nil => rfl
    | cons y ys => simp at hlen
  | cons x xs ih =>
    intro l2 hlen hget
    cases l2 with
    | nil => simp at hlen
    | cons y ys =>
      have h0 := hget 0
      simp only [List.getD_cons_zero] at h0
      have htail : xs = ys := by
        refine ih ys (by simpa using hlen) ?_
        intro i
        have := hget (i + 1)
        simpa using this
      rw [h0, htail]

/- Properties of `update`. -/

lemma update_length (m : List Bound) (id : Nat) (b : Bound) :
    (update m id b).1.length = m.length := by
  unfold update
  by_cases h : bleB b (m.getD id none) = true
  · rw [if_pos h]
  · rw [if_neg h]
    show (m.set id b).length = m.length
    exact List.length_set m id b

lemma update_getD_self (m : List Bound) (id : Nat) (b : Bound) (h : id < m.length) :
    (update m id b).1.getD id none = bmax (m.getD id none) b := by
  unfold update
  by_cases hle : bleB b (m.getD id none) = true
  · rw [if_pos hle]
    exact (bmax_eq_left_of_le hle).symm
  · have hle' : bleB b (m.getD id none) = false := by
      simpa using hle
    rw [if_neg hle]
    show (m.set id b).getD id none = bmax (m.getD id none) b
    rw [getD_set_self m id b h, bmax_eq_right_of_not_le hle']

lemma update_getD_ne (m : List Bound) (id j : Nat) (b : Bound) (hne : j ≠ id) :
    (update m id b).1.getD j none = m.getD j none := by
  unfold update
  by_cases hle : bleB b (m.getD id none) = true
  · rw [if_pos hle]
  · rw [if_neg hle]
    show (m.set id b).getD j none = m.getD j none
    exact getD_set_ne m id j b hne

lemma update_snd (m : List Bound) (id : Nat) (b : Bound) :
    (update m id b).2 = !bleB b (m.getD id none) := by
  unfold update
  by_cases hle : bleB b (m.getD id none) = true
  · rw [if_pos hle, hle]
    rfl
  · have hle' : bleB b (m.getD id none) = false := by
      simpa using hle
    rw [if_neg hle, hle']
    rfl


/- Properties of the map-level update loop. -/

lemma updateUpTo_length (m upd : List Bound) :
    ∀ k, (updateUpTo m upd k).1.length = m.length := by
  intro k
  induction k with
  | zero => simp [updateUpTo]
  | succ n ih => simp [updateUpTo, update_length, ih]

lemma updateUpTo_getD_ge (m upd : List Bound) :
    ∀ k i, k ≤ i → (updateUpTo m upd k).1.getD i none = m.getD i none := by
  intro k
  induction k with
  | zero => intro i _; simp [updateUpTo]
  | succ n ih =>
    intro i h
    have hne : i ≠ n := by omega
    simp only [updateUpTo]
    rw [update_getD_ne _ _ _ _ hne]
    exact ih i (by omega)

lemma updateUpTo_getD_lt (m upd : List Bound) :
    ∀ k i, i < k → i < m.length →
      (updateUpTo m upd k).1.getD i none = bmax (m.getD i none) (upd.getD i none) := by
  intro k
  induction k with
  | zero => intro i h _; omega
  | succ n ih =>
    intro i h hlen
    by_cases hi : i = n
    · subst hi
      simp only [updateUpTo]
      rw [update_getD_self _ _ _ (by rw [updateUpTo_length]; exact hlen)]
      rw [updateUpTo_getD_ge m upd i i (le_refl i)]
    · have hlt : i < n := by omega
      simp only [updateUpTo]
      rw [update_getD_ne _ _ _ _ hi]
      exact ih i hlt hlen

lemma updateUpTo_snd (m upd : List Bound) :
    ∀ k, (updateUpTo m upd k).2 =
      (List.range k).any (fun i => !bleB (upd.getD i none) (m.getD i none)) := by
  intro k
  induction k with
  | zero => simp [updateUpTo]
  | succ n ih =>
    simp only [updateUpTo, List.range_succ, List.any_append, List.any_cons, List.any_nil]
    rw [ih, update_snd]
    rw [updateUpTo_getD_ge m upd n n (le_refl n), Bool.or_false]

lemma updateAll_length (m upd : List Bound) : (updateAll m upd).1.length = m.length :=
  updateUpTo_length m upd m.length

lemma updateAll_getD (m upd : List Bound) (i : Nat) (h : i < m.length) :
    (updateAll m upd).1.getD i none = bmax (m.getD i none) (upd.getD i none) :=
  updateUpTo_getD_lt m upd m.length i h h

lemma updateAll_getD_ge (m upd : List Bound) (i : Nat) (h : m.length ≤ i) :
    (updateAll m upd).1.getD i none = none := by
  unfold updateAll
  rw [updateUpTo_getD_ge m upd m.length i h]
  exact getD_eq_none_of_le m i h

lemma updateAll_snd (m upd : List Bound) :
    (updateAll m upd).2 = true ↔
      ∃ i, i < m.length ∧ bleB (upd.getD i none) (m.getD i none) = false := by
  unfold updateAll
  rw [updateUpTo_snd]
  simp only [List.any_eq_true, List.mem_range, Bool.not_eq_true']

/-! ### Local clock-bound maps (`local_lu_map_t`, `local_m_map_t`) -/

/-- `local_lu_map_t`: per-location L and U maps over `clockNb` clocks and
`locNb` locations. -/
structure LocalLuMap where
  locNb : Nat
  clockNb : Nat
  L : List (List Bound)
  U : List (List Bound)

/-- `local_m_map_t`: per-location M map. -/
structure LocalMMap where
  locNb : Nat
  clockNb : Nat
  M : List (List Bound)

/-- Well-formedness of a `local_lu_map_t`: one L and one U map per location,
each of capacity `clockNb` (guaranteed by `resize` in the source). -/
def LocalLuMap.wf (m : LocalLuMap) : Prop :=
  m.L.length = m.locNb ∧ m.U.length = m.locNb ∧
  (∀ x ∈ m.L, x.length = m.clockNb) ∧ (∀ x ∈ m.U, x.length = m.clockNb)

/-- Well-formedness of a `local_m_map_t`. -/
def LocalMMap.wf (m : LocalMMap) : Prop :=
  m.M.length = m.locNb ∧ ∀ x ∈ m.M, x.length = m.clockNb

/-- `local_lu_map_t::bounds(id, L, U)`: clear the output maps and update them
with the per-location maps `_L[id]` and `_U[id]`. -/
def LocalLuMap.boundsLoc (m : LocalLuMap) (id : Nat) : List Bound × List Bound :=
  ((updateAll (clearMap m.clockNb) (m.L.getD id [])).1,
   (updateAll (clearMap m.clockNb) (m.U.getD id [])).1)

/-- `local_lu_map_t::bounds(vloc, L, U)`: clear the output maps, then for each
component location id of the vloc, update them with `_L[id]` and `_U[id]`. -/
def LocalLuMap.boundsVloc (m : LocalLuMap) (vloc : List Nat) : List Bound × List Bound :=
  vloc.foldl
    (fun acc id => ((updateAll acc.1 (m.L.getD id [])).1, (updateAll acc.2 (m.U.getD id [])).1))
    (clearMap m.clockNb, clearMap m.clockNb)

/-- `local_m_map_t::bounds(id, M)`. -/
def LocalMMap.boundsLoc (m : LocalMMap) (id : Nat) : List Bound :=
  (updateAll (clearMap m.clockNb) (m.M.getD id [])).1

/-- `local_m_map_t::bounds(vloc, M)`. -/
def LocalMMap.boundsVloc (m : LocalMMap) (vloc : List Nat) : List Bound :=
  vloc.foldl (fun acc id => (updateAll acc (m.M.getD id [])).1) (clearMap m.clockNb)

/-- Pointwise maximum at clock `i` of a family of maps, with `NO_BOUND` as the
neutral element: the specification's reading of the vloc query. -/
def pointwiseMaxAt (maps : List (List Bound)) (i : Nat) : Bound :=
  maps.foldl (fun acc u => bmax acc (u.getD i none)) none

/- Generic lemmas about the single-family fold used by the vloc queries. -/

/-- The fold of `updateAll` over one family of maps, as used by the vloc
queries (each location contributes the map `fam l`). -/
def foldBounds (fam : Nat → List Bound) (clockNb : Nat) (vloc : List Nat) : List Bound :=
  vloc.foldl (fun acc l => (updateAll acc (fam l)).1) (clearMap clockNb)

lemma clearMap_length (n : Nat) : (clearMap n).length = n := by
  simp [clearMap]

lemma clearMap_getD (n i : Nat) : (clearMap n).getD i none = none := by
  by_cases h : i < n
  · unfold clearMap
    rw [List.getD_eq_getElem?_getD]
    rw [List.getElem?_replicate]
    simp [h]
  · exact getD_eq_none_of_le _ _ (by simpa [clearMap_length] using Nat.le_of_not_lt h)

lemma foldBounds_aux (fam : Nat → List Bound) (clockNb : Nat) :
    ∀ (vloc : List Nat) (acc : List Bound), acc.length = clockNb →
      (vloc.foldl (fun acc l => (updateAll acc (fam l)).1) acc).length = clockNb ∧
      ∀ i, i < clockNb →
        (vloc.foldl (fun acc l => (updateAll acc (fam l)).1) acc).getD i none =
          vloc.foldl (fun a l => bmax a ((fam l).getD i none)) (acc.getD i none) := by
  intro vloc
  induction vloc with
  | nil => intro acc hlen; exact ⟨hlen, fun i _ => rfl⟩
  | cons l rest ih =>
    intro acc hlen
    have hlen1 : (updateAll acc (fam l)).1.length = clockNb := by
      rw [updateAll_length]; exact hlen
    obtain ⟨hL, hG⟩ := ih (updateAll acc (fam l)).1 hlen1
    refine ⟨by simpa [List.foldl_cons] using hL, ?_⟩
    intro i hi
    simp only [List.foldl_cons]
    rw [hG i hi]
    rw [updateAll_getD acc (fam l) i (by omega)]

lemma foldBounds_length (fam : Nat → List Bound) (clockNb : Nat) (vloc : List Nat) :
    (foldBounds fam clockNb vloc).length = clockNb :=
  (foldBounds_aux fam clockNb vloc (clearMap clockNb) (clearMap_length clockNb)).1

lemma foldBounds_getD (fam : Nat → List Bound) (clockNb : Nat) (vloc : List Nat)
    (i : Nat) (hi : i < clockNb) :
    (foldBounds fam clockNb vloc).getD i none =
      vloc.foldl (fun a l => bmax a ((fam l).getD i none)) none := by
  have := (foldBounds_aux fam clockNb vloc (clearMap clockNb) (clearMap_length clockNb)).2 i hi
  unfold foldBounds
  rw [this, clearMap_getD]

/-- The paired LU fold decomposes into two independent single-family folds. -/
lemma boundsVloc_eq_foldBounds (m : LocalLuMap) (vloc : List Nat) :
    m.boundsVloc vloc =
      (foldBounds (fun l => m.L.getD l []) m.clockNb vloc,
       foldBounds (fun l => m.U.getD l []) m.clockNb vloc) := by
  have key : ∀ (v : List Nat) (a b : List Bound),
      v.foldl
        (fun acc id => ((updateAll acc.1 (m.L.getD id [])).1, (updateAll acc.2 (m.U.getD id [])).1))
        (a, b) =
      (v.foldl (fun acc l => (updateAll acc (m.L.getD l [])).1) a,
       v.foldl (fun acc l => (updateAll acc (m.U.getD l [])).1) b) := by
    intro v
    induction v with
    | nil => intro a b; rfl
    | cons l rest ih =>
      intro a b
      simp only [List.foldl_cons]
      exact ih (updateAll a (m.L.getD l [])).1 (updateAll b (m.U.getD l [])).1
  unfold LocalLuMap.boundsVloc foldBounds
  exact key vloc (clearMap m.clockNb) (clearMap m.clockNb)

/-- A single-location query returns exactly the stored per-location map,
read entrywise (`bounds(l)` clears and then updates once). -/
lemma boundsLoc_getD (m : LocalLuMap) (l i : Nat) (hi : i < m.clockNb) :
    ((m.boundsLoc l).1.getD i none = (m.L.getD l []).getD i none) ∧
    ((m.boundsLoc l).2.getD i none = (m.U.getD l []).getD i none) := by
  unfold LocalLuMap.boundsLoc
  constructor
  · rw [updateAll_getD _ _ i (by rw [clearMap_length]; exact hi), clearMap_getD,
      bmax_none_left]
  · rw [updateAll_getD _ _ i (by rw [clearMap_length]; exact hi), clearMap_getD,
      bmax_none_left]

lemma boundsLocM_getD (m : LocalMMap) (l i : Nat) (hi : i < m.clockNb) :
    (m.boundsLoc l).getD i none = (m.M.getD l []).getD i none := by
  unfold LocalMMap.boundsLoc
  rw [updateAll_getD _ _ i (by rw [clearMap_length]; exact hi), clearMap_getD,
    bmax_none_left]

lemma bleB_total (a b : Bound) (h : bleB a b = false) : bleB b a = true := by
  cases a with
  | none => simp [bleB] at h
  | some x =>
    cases b with
    | none => simp [bleB]
    | some y =>
      simp only [bleB, decide_eq_false_iff_not] at h
      simp only [bleB, decide_eq_true_eq]
      omega

lemma bmax_spec (a c : Bound) :
    bleB a (bmax a c) = true ∧ bleB c (bmax a c) = true ∧ (bmax a c = a ∨ bmax a c = c) := by
  unfold bmax
  by_cases h : bleB c a = true
  · rw [if_pos h]
    exact ⟨bleB_refl a, h, Or.inl rfl⟩
  · have h' : bleB c a = false := by simpa using h
    rw [if_neg h]
    exact ⟨bleB_total c a h', bleB_refl c, Or.inr rfl⟩

lemma getD_map_range (n i : Nat) (f : Nat → Bound) (h : i < n) :
    ((List.range n).map f).getD i none = f i := by
  rw [List.getD_eq_getElem?_getD, List.getElem?_map, List.getElem?_range h]
  rfl

lemma foldBounds_eq_pointwiseMax (fam famB : Nat → List Bound) (n : Nat) (v : List Nat)
    (hB : ∀ l i, i < n → (famB l).getD i none = (fam l).getD i none) :
    foldBounds fam n v = (List.range n).map (fun i => pointwiseMaxAt (v.map famB) i) := by
  apply list_ext_getD
  · rw [foldBounds_length]
    simp
  · intro i
    by_cases hi : i < n
    · rw [foldBounds_getD fam n v i hi, getD_map_range n i _ hi]
      unfold pointwiseMaxAt
      rw [List.foldl_map]
      apply List.foldl_ext
      intro a l _
      rw [hB l i hi]
    · rw [getD_eq_none_of_le _ _ (by rw [foldBounds_length]; omega)]
      rw [getD_eq_none_of_le _ _ (by simp; omega)]

/-- Claim C4: for every vloc whose component location ids are all below the
map's location count, `local_lu_map_t::bounds(vloc, L, U)` returns L and U
equal to the pointwise maximum, over the component locations `l` of the vloc,
of the per-location maps `bounds(l)`, with `NO_BOUND` acting as minus infinity
under max; the analogous equation holds for `local_m_map_t::bounds(vloc, M)`. -/
theorem claim_C4_vloc_bounds_pointwise_max (m : LocalLuMap) (mm : LocalMMap) (vloc : List Nat)
    (_hwf : m.wf) (_hv : ∀ l ∈ vloc, l < m.locNb)
    (_hwfm : mm.wf) (_hvm : ∀ l ∈ vloc, l < mm.locNb) :
    (m.boundsVloc vloc).1 =
      (List.range m.clockNb).map (fun i => pointwiseMaxAt (vloc.map (fun l => (m.boundsLoc l).1)) i) ∧
    (m.boundsVloc vloc).2 =
      (List.range m.clockNb).map (fun i => pointwiseMaxAt (vloc.map (fun l => (m.boundsLoc l).2)) i) ∧
    mm.boundsVloc vloc =
      (List.range mm.clockNb).map (fun i => pointwiseMaxAt (vloc.map (fun l => mm.boundsLoc l)) i) := by
  refine ⟨?_, ?_, ?_⟩
  · rw [boundsVloc_eq_foldBounds]
    exact foldBounds_eq_pointwiseMax _ _ _ _ (fun l i hi => (boundsLoc_getD m l i hi).1)
  · rw [boundsVloc_eq_foldBounds]
    exact foldBounds_eq_pointwiseMax _ _ _ _ (fun l i hi => (boundsLoc_getD m l i hi).2)
  · have hM : mm.boundsVloc vloc = foldBounds (fun l => mm.M.getD l []) mm.clockNb vloc := rfl
    rw [hM]
    exact foldBounds_eq_pointwiseMax _ _ _ _ (fun l i hi => boundsLocM_getD mm l i hi)

/-- Concrete local LU map used by the witness of C4. -/
def luWitnessMap : LocalLuMap :=
  ⟨2, 2, [[some 1, none], [none, some 3]], [[some 0, some 5], [none, none]]⟩

/-- Concrete local M map used by the witness of C4. -/
def mWitnessMap : LocalMMap := ⟨2, 2, [[some 2, none], [some 1, some 1]]⟩

theorem claim_C4_vloc_bounds_pointwise_max_witness :
    (luWitnessMap.wf ∧ mWitnessMap.wf ∧ (∀ l ∈ [0, 1], l < luWitnessMap.locNb)) ∧
    (luWitnessMap.boundsVloc [0, 1]).1 =
      (List.range luWitnessMap.clockNb).map
        (fun i => pointwiseMaxAt ([0, 1].map (fun l => (luWitnessMap.boundsLoc l).1)) i) :=
  ⟨⟨by unfold LocalLuMap.wf; decide, by unfold LocalMMap.wf; decide, by decide⟩,
   (claim_C4_vloc_bounds_pointwise_max luWitnessMap mWitnessMap [0, 1]
      (by unfold LocalLuMap.wf; decide) (by decide)
      (by unfold LocalMMap.wf; decide) (by decide)).1⟩

/-- Claim C5: `update(m, id, b)` is monotone — afterwards `m[id]` equals
`max(previous m[id], b)`, every other entry is unchanged, and the call returns
true iff `m[id]` strictly grew; `NO_BOUND` is strictly smaller than every
integer, so updating with `NO_BOUND` never changes an already-set entry; the
map-level `update(m, upd)` applies this pointwise and returns true iff some
entry grew. -/
theorem claim_C5_update_monotone (m upd : List Bound) (id : Nat) (b : Bound)
    (h : id < m.length) :
    ((update m id b).1.getD id none = bmax (m.getD id none) b) ∧
    ((update m id b).1.length = m.length) ∧
    (∀ j, j ≠ id → (update m id b).1.getD j none = m.getD j none) ∧
    ((update m id b).2 = true ↔ bleB b (m.getD id none) = false) ∧
    (∀ a c : Bound, bleB a (bmax a c) = true ∧ bleB c (bmax a c) = true ∧
      (bmax a c = a ∨ bmax a c = c)) ∧
    (∀ z : Int, bleB (some z) none = false ∧ bleB none (some z) = true) ∧
    (update m id none = (m, false)) ∧
    (∀ i, i < m.length →
      (updateAll m upd).1.getD i none = bmax (m.getD i none) (upd.getD i none)) ∧
    ((updateAll m upd).2 = true ↔
      ∃ i, i < m.length ∧ bleB (upd.getD i none) (m.getD i none) = false) := by
  refine ⟨update_getD_self m id b h, update_length m id b,
    fun j hj => update_getD_ne m id j b hj, ?_, bmax_spec,
    fun z => ⟨rfl, rfl⟩, ?_, fun i hi => updateAll_getD m upd i hi, updateAll_snd m upd⟩
  · rw [update_snd]
    cases hb : bleB b (m.getD id none) <;> simp
  · unfold update
    rw [if_pos]
    rfl

theorem claim_C5_update_monotone_witness :
    (0 < [some (1 : Int), none, some 4].length) ∧
    (update [some (1 : Int), none, some 4] 0 (some 2)).1.getD 0 none =
      bmax ([some (1 : Int), none, some 4].getD 0 none) (some 2) :=
  ⟨by decide,
   (claim_C5_update_monotone [some 1, none, some 4] [none, some 7, some 2] 0 (some 2)
      (by decide)).1⟩

/-! ## Symbolic states of the zone graph with reference clocks
(`src/refzg/state.cc`)

A `refzg::state_t` extends a `ta::state_t` (a pair of shared vloc and intval)
with a shared zone. Shared components are intrusive shared pointers; a state
therefore carries both the component values and the pointer identities of the
shared components. The zone contents are kept as an opaque list of integers
(the DBM engine is outside the analysed sources); zone inclusion and the
aLU-style inclusion tests are parameters. -/

/-- A symbolic state of the zone graph with reference clocks: vloc, intval and
zone values, plus the pointer identities of the three shared components. -/
structure RState where
  vloc : List Nat
  intval : List Int
  zone : List Int
  vlocPtr : Nat
  intvalPtr : Nat
  zonePtr : Nat
deriving DecidableEq

/-- Modelled from the spec: `tchecker::ta::operator==` lives in `ta/state.cc`
which is not part of the sources; the spec decomposes symbolic-state equality
as equality of vlocs and equality of intvals at the ta level. -/
def taEq (s1 s2 : RState) : Bool := s1.vloc == s2.vloc && s1.intval == s2.intval

/-- Modelled from the spec: `tchecker::ta::shared_equal_to` (handle-based
equality, not in the sources) compares the pointer identities of the shared
vloc and intval. -/
def taSharedEqualTo (s1 s2 : RState) : Bool :=
  s1.vlocPtr == s2.vlocPtr && s1.intvalPtr == s2.intvalPtr

/-- `operator==` from `refzg/state.cc`: ta-equality and zone content
equality. -/
def stateEq (s1 s2 : RState) : Bool := taEq s1 s2 && s1.zone == s2.zone

/-- `operator!=` from `refzg/state.cc`. -/
def stateNe (s1 s2 : RState) : Bool := !stateEq s1 s2

/-- `shared_equal_to` from `refzg/state.cc`: ta shared-equality and zone
pointer equality. -/
def stateSharedEqualTo (s1 s2 : RState) : Bool :=
  taSharedEqualTo s1 s2 && s1.zonePtr == s2.zonePtr

/-- `operator<=` from `refzg/state.cc`: ta-equality and zone inclusion
(`zle` stands for `zone() <= zone()`, computed by the DBM engine). -/
def stateLe (zle : List Int → List Int → Bool) (s1 s2 : RState) : Bool :=
  taEq s1 s2 && zle s1.zone s2.zone

/-- `shared_is_le` from `refzg/state.cc`: ta shared-equality, then zone
pointer equality short-circuit, else zone inclusion. -/
def sharedIsLe (zle : List Int → List Int → Bool) (s1 s2 : RState) : Bool :=
  taSharedEqualTo s1 s2 && (s1.zonePtr == s2.zonePtr || zle s1.zone s2.zone)

/-- `is_alu_star_le` from `refzg/state.cc` (`aluLe z1 z2 l u` stands for
`z1.is_alu_star_le(z2, l, u)`). -/
def isAluStarLe (aluLe : List Int → List Int → List Bound → List Bound → Bool)
    (l u : List Bound) (s1 s2 : RState) : Bool :=
  taEq s1 s2 && aluLe s1.zone s2.zone l u

/-- `shared_is_alu_star_le` from `refzg/state.cc`. -/
def sharedIsAluStarLe (aluLe : List Int → List Int → List Bound → List Bound → Bool)
    (l u : List Bound) (s1 s2 : RState) : Bool :=
  taSharedEqualTo s1 s2 && (s1.zonePtr == s2.zonePtr || aluLe s1.zone s2.zone l u)

/-- `shared_is_time_elapse_alu_star_le` from `refzg/state.cc`. -/
def sharedIsTimeElapseAluStarLe
    (teAluLe : List Int → List Int → List Bound → List Bound → Bool)
    (l u : List Bound) (s1 s2 : RState) : Bool :=
  taSharedEqualTo s1 s2 && (s1.zonePtr == s2.zonePtr || teAluLe s1.zone s2.zone l u)

/-- `shared_is_sync_alu_le` from `refzg/state.cc`. -/
def sharedIsSyncAluLe (syncAluLe : List Int → List Int → List Bound → List Bound → Bool)
    (l u : List Bound) (s1 s2 : RState) : Bool :=
  taSharedEqualTo s1 s2 && (s1.zonePtr == s2.zonePtr || syncAluLe s1.zone s2.zone l u)

/-! ### Hashing (`hash_value` / `shared_hash_value` from `refzg/state.cc`) -/

/-- Modelled from the spec: `boost::hash_combine` is external to the sources;
any deterministic combiner is faithful for the hashing-consistency claims. -/
def hashCombine (seed v : Nat) : Nat :=
  (Nat.xor seed ((v + 0x9e3779b9 + seed * 64 + seed / 4) % 2 ^ 64)) % 2 ^ 64

/-- Content hash of a vloc. -/
def hashVloc (l : List Nat) : Nat := l.foldl hashCombine 0

/-- Injection of an integer into the naturals used for hashing. -/
def encInt (z : Int) : Nat := if z < 0 then 2 * z.natAbs + 1 else 2 * z.natAbs

/-- Content hash of a list of integers (intval or zone contents). -/
def hashIntList (l : List Int) : Nat := (l.map encInt).foldl hashCombine 0

/-- Modelled from the spec: `tchecker::ta::hash_value` (not in the sources) is
the content hash of the vloc and intval of a state. -/
def taHashValue (s : RState) : Nat := hashCombine (hashVloc s.vloc) (hashIntList s.intval)

/-- Modelled from the spec: `tchecker::ta::shared_hash_value` (not in the
sources) hashes the pointer identities of the shared vloc and intval. -/
def taSharedHashValue (s : RState) : Nat := hashCombine s.vlocPtr s.intvalPtr

/-- `hash_value` from `refzg/state.cc`: the ta content hash combined with the
zone content hash. -/
def hashValue (s : RState) : Nat := hashCombine (taHashValue s) (hashIntList s.zone)

/-- `shared_hash_value` from `refzg/state.cc`: the ta pointer hash combined
with the zone pointer. -/
def sharedHashValue (s : RState) : Nat := hashCombine (taSharedHashValue s) s.zonePtr

/-! ### Claims C6, C7, C10 -/

lemma taEq_iff (s1 s2 : RState) :
    taEq s1 s2 = true ↔ s1.vloc = s2.vloc ∧ s1.intval = s2.intval := by
  unfold taEq
  simp

lemma taSharedEqualTo_iff (s1 s2 : RState) :
    taSharedEqualTo s1 s2 = true ↔ s1.vlocPtr = s2.vlocPtr ∧ s1.intvalPtr = s2.intvalPtr := by
  unfold taSharedEqualTo
  simp

lemma taSharedEqualTo_refl (s : RState) : taSharedEqualTo s s = true := by
  unfold taSharedEqualTo
  simp

/-- Claim C6: for every pair of symbolic states of the zone graph with
reference clocks, `s1 == s2` holds iff their vlocs, intvals and zones are
equal, and `s1 <= s2` holds iff their vlocs and intvals are equal and s1's
zone is included in s2's zone. -/
theorem claim_C6_state_eq_le_decomposition (zle : List Int → List Int → Bool)
    (s1 s2 : RState) :
    (stateEq s1 s2 = true ↔ s1.vloc = s2.vloc ∧ s1.intval = s2.intval ∧ s1.zone = s2.zone) ∧
    (stateLe zle s1 s2 = true ↔
      s1.vloc = s2.vloc ∧ s1.intval = s2.intval ∧ zle s1.zone s2.zone = true) := by
  constructor
  · unfold stateEq
    rw [Bool.and_eq_true, taEq_iff]
    simp [and_assoc]
  · unfold stateLe
    rw [Bool.and_eq_true, taEq_iff]
    simp [and_assoc]

/-- Claim C7: structural equality implies equal structural hashes, and shared
(pointer) equality implies equal shared hashes. -/
theorem claim_C7_hash_consistency (s1 s2 t1 t2 : RState)
    (h : stateEq s1 s2 = true) (hs : stateSharedEqualTo t1 t2 = true) :
    hashValue s1 = hashValue s2 ∧ sharedHashValue t1 = sharedHashValue t2 := by
  constructor
  · unfold stateEq at h
    rw [Bool.and_eq_true, taEq_iff] at h
    obtain ⟨⟨hv, hi⟩, hz⟩ := h
    have hz' : s1.zone = s2.zone := by simpa using hz
    unfold hashValue taHashValue
    rw [hv, hi, hz']
  · unfold stateSharedEqualTo at hs
    rw [Bool.and_eq_true, taSharedEqualTo_iff] at hs
    obtain ⟨⟨hv, hi⟩, hz⟩ := hs
    have hz' : t1.zonePtr = t2.zonePtr := by simpa using hz
    unfold sharedHashValue taSharedHashValue
    rw [hv, hi, hz']

/-- Two concrete states sharing contents and pointers, for the witnesses. -/
def rsWitness1 : RState := ⟨[0, 1], [2], [3, 4], 10, 11, 12⟩

/-- A state with the same contents and pointers as `rsWitness1` used on the
right-hand side of the witness instances. -/
def rsWitness2 : RState := ⟨[0, 1], [2], [3, 4], 10, 11, 12⟩

theorem claim_C7_hash_consistency_witness :
    (stateEq rsWitness1 rsWitness2 = true ∧ stateSharedEqualTo rsWitness1 rsWitness2 = true) ∧
    hashValue rsWitness1 = hashValue rsWitness2 :=
  ⟨⟨by decide, by decide⟩,
   (claim_C7_hash_consistency rsWitness1 rsWitness2 rsWitness1 rsWitness2
      (by decide) (by decide)).1⟩

/-- Claim C10: every shared inclusion test on zone-graph states short-circuits
on pointer identity — when the ta components are shared-equal and the two
states hold the same zone pointer, each test returns true for every zone
comparison function (so the zone contents are never consulted) — and each of
the four relations is reflexive. -/
theorem claim_C10_shared_le_short_circuit
    (zle : List Int → List Int → Bool)
    (aluLe teAluLe syncAluLe : List Int → List Int → List Bound → List Bound → Bool)
    (l u : List Bound) (s1 s2 : RState)
    (hta : taSharedEqualTo s1 s2 = true) (hptr : s1.zonePtr = s2.zonePtr) :
    (sharedIsLe zle s1 s2 = true ∧
     sharedIsAluStarLe aluLe l u s1 s2 = true ∧
     sharedIsTimeElapseAluStarLe teAluLe l u s1 s2 = true ∧
     sharedIsSyncAluLe syncAluLe l u s1 s2 = true) ∧
    (∀ s : RState,
      sharedIsLe zle s s = true ∧
      sharedIsAluStarLe aluLe l u s s = true ∧
      sharedIsTimeElapseAluStarLe teAluLe l u s s = true ∧
      sharedIsSyncAluLe syncAluLe l u s s = true) := by
  have hp : (s1.zonePtr == s2.zonePtr) = true := by
    simpa using hptr
  constructor
  · unfold sharedIsLe sharedIsAluStarLe sharedIsTimeElapseAluStarLe sharedIsSyncAluLe
    rw [hta, hp]
    simp
  · intro s
    have hrefl : (s.zonePtr == s.zonePtr) = true := by simp
    unfold sharedIsLe sharedIsAluStarLe sharedIsTimeElapseAluStarLe sharedIsSyncAluLe
    rw [taSharedEqualTo_refl s, hrefl]
    simp

theorem claim_C10_shared_le_short_circuit_witness :
    (taSharedEqualTo rsWitness1 rsWitness2 = true ∧ rsWitness1.zonePtr = rsWitness2.zonePtr) ∧
    sharedIsLe (fun _ _ => false) rsWitness1 rsWitness2 = true :=
  ⟨⟨by decide, by decide⟩,
   ((claim_C10_shared_le_short_circuit (fun _ _ => false)
      (fun _ _ _ _ => false) (fun _ _ _ _ => false) (fun _ _ _ _ => false)
      [] [] rsWitness1 rsWitness2 (by decide) (by decide)).1).1⟩

/-! ## Reachability driver (`include/tchecker/algorithms/reach/algorithm.hh`)

`algorithm_t` is generic in the transition system `TS` and the graph `GRAPH`.
The embedding keeps both generic: a transition system is a record of `initial`,
`next`, `labels` and `is_valid_final`; a graph is a record of `add_node`,
`add_edge`, the node flag setters and `state_ptr`; the waiting-list policy is
an arbitrary insertion function, with `first`/`remove_first` taking the head.
Node handles are natural numbers. The driver loop takes a fuel parameter; the
run is instrumented with the lists of popped nodes, of nodes whose successors
were computed, of waiting-list insertions and of nodes marked final, so that
the control flow of the source loop is observable. -/

/-- Status codes attached to the `(status, state, transition)` triples emitted
by a transition system. -/
inductive Status where
  | OK
  | INCOMPATIBLE_EDGE
  | SRC_INVARIANT_VIOLATED
  | GUARD_VIOLATED
  | STATEMENT_FAILED
  | TGT_INVARIANT_VIOLATED
deriving DecidableEq

/-- The counters of `tchecker::algorithms::reach::stats_t` used by the
driver: visited states, visited transitions, reachability flag. -/
structure Stats where
  visitedStates : Nat
  visitedTransitions : Nat
  reachable : Bool
deriving DecidableEq

/-- A transition system as consumed by the driver (`tchecker::ts::fwd_t` and
`tchecker::ts::inspector_t`): initial triples, successor triples, labels of a
state and validity as a final state. Labels are bitsets, modelled as lists of
set bit indices. -/
structure TSys (S T : Type) where
  initial : List (Status × S × T)
  next : S → List (Status × S × T)
  labels : S → List Nat
  isValidFinal : S → Bool

/-- A reachability graph as consumed by the driver: `add_node` returns the
updated graph, whether the node is new, and the node handle; `add_edge` adds
an edge; the two setters set the `initial`/`final` node flags;
`nodeState` is `node->state_ptr()`. -/
structure GraphOps (G S T : Type) where
  addNode : G → S → G × Bool × Nat
  addEdge : G → Nat → Nat → T → G
  setInitial : G → Nat → G
  setFinal : G → Nat → G
  nodeState : G → Nat → S

/-- `labels.none()` on a bitset: no bit is set. -/
def noneB (labels : List Nat) : Bool := labels.isEmpty

/-- `labels.is_subset_of(other)` on bitsets. -/
def subsetB (l1 l2 : List Nat) : Bool := l1.all (fun x => l2.contains x)

/-- `algorithm_t::accepting`: labels is not empty, labels is a subset of the
node's labels, and the node is a valid final state of the transition
system. -/
def acceptingB {S T G : Type} (ts : TSys S T) (ops : GraphOps G S T) (g : G)
    (labels : List Nat) (n : Nat) : Bool :=
  !(noneB labels) && subsetB labels (ts.labels (ops.nodeState g n)) &&
    ts.isValidFinal (ops.nodeState g n)

/-- Per-triple record of the successor loop: state, transition, node handle
returned by `add_node`, and whether the node was new. -/
structure TripleRec (S T : Type) where
  state : S
  trans : T
  handle : Nat
  isNew : Bool

/-- Result of processing the successor triples of one popped node. -/
structure StepResult (S T G : Type) where
  graph : G
  waiting : List Nat
  stats : Stats
  pushed : List Nat
  recs : List (TripleRec S T)
  edgesAdded : List (Nat × Nat × T)

/-- The body of the successor loop of `run_from_waiting`: for each triple
`(status, s, t)` of `sst`, `add_node(s)`; if the node is new, insert it into
the waiting list; `add_edge(node, next_node, t)`; increment
`visited_transitions`. -/
def processSst {S T G : Type} (ops : GraphOps G S T) (ins : List Nat → Nat → List Nat)
    (node : Nat) :
    G → List Nat → Stats → List (Status × S × T) → StepResult S T G
  | g, w, st, [] => ⟨g, w, st, [], [], []⟩
  | g, w, st, (_, s, t) :: rest =>
    let an := ops.addNode g s
    let g1 := an.1
    let isNew := an.2.1
    let nn := an.2.2
    let w1 := if isNew then ins w nn else w
    let g2 := ops.addEdge g1 node nn t
    let st1 := { st with visitedTransitions := st.visitedTransitions + 1 }
    let r := processSst ops ins node g2 w1 st1 rest
    ⟨r.graph, r.waiting, r.stats,
     (if isNew then nn :: r.pushed else r.pushed),
     ⟨s, t, nn, isNew⟩ :: r.recs,
     (node, nn, t) :: r.edgesAdded⟩

/-- Result of a driver run: final graph and statistics, the waiting list at
return, and the instrumentation lists — nodes popped, nodes whose successors
were computed, and nodes marked final. -/
structure RunResult (G : Type) where
  graph : G
  stats : Stats
  waiting : List Nat
  popped : List Nat
  nextCalled : List Nat
  finalsMarked : List Nat

/-- `algorithm_t::run_from_waiting`: while the waiting list is not empty, pop
the first node, increment `visited_states`; if the node is accepting, mark it
final, set `reachable`, and stop; otherwise process its successor triples.
The waiting list is cleared on exit. The extra fuel argument bounds the
number of loop iterations (`none` when the fuel is exhausted). -/
def runFromWaiting {S T G : Type} (ts : TSys S T) (ops : GraphOps G S T)
    (ins : List Nat → Nat → List Nat) (labels : List Nat) :
    Nat → G → List Nat → Stats → Option (RunResult G)
  | _, g, [], st => some ⟨g, st, [], [], [], []⟩
  | 0, _, _ :: _, _ => none
  | fuel + 1, g, node :: rest, st =>
    let st1 := { st with visitedStates := st.visitedStates + 1 }
    if acceptingB ts ops g labels node then
      some ⟨ops.setFinal g node, { st1 with reachable := true }, [], [node], [], [node]⟩
    else
      let sr := processSst ops ins node g rest st1 (ts.next (ops.nodeState g node))
      match runFromWaiting ts ops ins labels fuel sr.graph sr.waiting sr.stats with
      | none => none
      | some r =>
        some ⟨r.graph, r.stats, r.waiting, node :: r.popped, node :: r.nextCalled,
          r.finalsMarked⟩

/-- Result of the seeding phase of `run`: graph and waiting list, plus the
instrumentation — per-triple (handle, is-new) records, the nodes whose
`initial` flag was set, and the nodes inserted into the waiting list. -/
structure SeedResult (G : Type) where
  graph : G
  waiting : List Nat
  recs : List (Nat × Bool)
  marked : List Nat
  pushed : List Nat

/-- The seeding loop of `algorithm_t::run`: for each initial triple
`(status, s, t)`, `add_node(s)`, set the node's `initial` flag, and insert it
into the waiting list if it is new. -/
def seed {S T G : Type} (ops : GraphOps G S T) (ins : List Nat → Nat → List Nat) :
    G → List Nat → List (Status × S × T) → SeedResult G
  | g, w, [] => ⟨g, w, [], [], []⟩
  | g, w, (_, s, _) :: rest =>
    let an := ops.addNode g s
    let g1 := an.1
    let isNew := an.2.1
    let n := an.2.2
    let g2 := ops.setInitial g1 n
    let w1 := if isNew then ins w n else w
    let r := seed ops ins g2 w1 rest
    ⟨r.graph, r.waiting, (n, isNew) :: r.recs, n :: r.marked,
     (if isNew then n :: r.pushed else r.pushed)⟩

/-- `algorithm_t::run`: seed the waiting list from the initial states of the
transition system, then run the main loop with fresh statistics. -/
def run {S T G : Type} (ts : TSys S T) (ops : GraphOps G S T)
    (ins : List Nat → Nat → List Nat) (labels : List Nat) (fuel : Nat) (g : G) :
    Option (RunResult G) :=
  let sd := seed ops ins g [] ts.initial
  runFromWaiting ts ops ins labels fuel sd.graph sd.waiting ⟨0, 0, false⟩

/-! ### The interning reachability graph

Modelled from the spec: `tchecker::graph::reachability_graph_t` is not part of
the analysed sources; per the spec the graph interns nodes by content
equality — `add_node` returns the existing node handle when an equal state is
already present, and otherwise appends a fresh node. -/

/-- A node of the interning graph: its state and its `initial`/`final`
flags. -/
structure NodeRec (S : Type) where
  state : S
  initFlag : Bool
  finalFlag : Bool

/-- The interning reachability graph: nodes indexed by handle, and a list of
edges `(src, dst, transition)`. -/
structure InternGraph (S T : Type) where
  nodes : List (NodeRec S)
  edges : List (Nat × Nat × T)

/-- Index of the first occurrence of `s`, if any. -/
def idxOf {S : Type} [DecidableEq S] (s : S) : List S → Option Nat
  | [] => none
  | x :: xs => if x = s then some 0 else (idxOf s xs).map (· + 1)

/-- Modelled from the spec: `add_node` interning by content equality — return
the handle of an existing node with an equal state, else append a fresh
node. -/
def internAddNode {S T : Type} [DecidableEq S] (g : InternGraph S T) (s : S) :
    InternGraph S T × Bool × Nat :=
  match idxOf s (g.nodes.map NodeRec.state) with
  | some i => (g, false, i)
  | none => ({ g with nodes := g.nodes ++ [⟨s, false, false⟩] }, true, g.nodes.length)

/-- Set the `initial` flag of node `n`. -/
def markInit {S : Type} : List (NodeRec S) → Nat → List (NodeRec S)
  | [], _ => []
  | x :: xs, 0 => { x with initFlag := true } :: xs
  | x :: xs, n + 1 => x :: markInit xs n

/-- Set the `final` flag of node `n`. -/
def markFinal {S : Type} : List (NodeRec S) → Nat → List (NodeRec S)
  | [], _ => []
  | x :: xs, 0 => { x with finalFlag := true } :: xs
  | x :: xs, n + 1 => x :: markFinal xs n

/-- The graph operations of the interning graph. -/
def internOps {S T : Type} [DecidableEq S] [Inhabited S] :
    GraphOps (InternGraph S T) S T where
  addNode := internAddNode
  addEdge := fun g a b t => { g with edges := g.edges ++ [(a, b, t)] }
  setInitial := fun g n => { g with nodes := markInit g.nodes n }
  setFinal := fun g n => { g with nodes := markFinal g.nodes n }
  nodeState := fun g n =>
    match g.nodes.get? n with
    | some r => r.state
    | none => default

/-! ### Driver lemmas and claims C1, C3 -/

section Driver

variable {S T G : Type}

lemma processSst_stats (ops : GraphOps G S T) (ins : List Nat → Nat → List Nat)
    (node : Nat) :
    ∀ (sst : List (Status × S × T)) (g : G) (w : List Nat) (st : Stats),
      (processSst ops ins node g w st sst).stats.visitedStates = st.visitedStates ∧
      (processSst ops ins node g w st sst).stats.visitedTransitions =
        st.visitedTransitions + sst.length ∧
      (processSst ops ins node g w st sst).stats.reachable = st.reachable := by
  intro sst
  induction sst with
  | nil => intro g w st; exact ⟨rfl, rfl, rfl⟩
  | cons e rest ih =>
    intro g w st
    obtain ⟨e1, e2, e3⟩ := e
    simp only [processSst]
    obtain ⟨h1, h2, h3⟩ := ih _ _ _
    refine ⟨h1, ?_, h3⟩
    rw [h2]
    simp only [List.length_cons]
    omega

lemma runFromWaiting_inv (ts : TSys S T) (ops : GraphOps G S T)
    (ins : List Nat → Nat → List Nat) (labels : List Nat) :
    ∀ (fuel : Nat) (g : G) (w : List Nat) (st : Stats) (r : RunResult G),
      runFromWaiting ts ops ins labels fuel g w st = some r →
      r.waiting = [] ∧
      r.stats.visitedStates = st.visitedStates + r.popped.length ∧
      st.visitedTransitions ≤ r.stats.visitedTransitions ∧
      ((r.stats.reachable = true ∧ r.finalsMarked.length = 1) ∨
       (r.stats.reachable = st.reachable ∧ r.finalsMarked = [])) := by
  intro fuel
  induction fuel with
  | zero =>
    intro g w st r h
    cases w with
    | nil =>
      simp only [runFromWaiting, Option.some.injEq] at h
      subst h
      exact ⟨rfl, by simp, le_refl _, Or.inr ⟨rfl, rfl⟩⟩
    | cons node rest =>
      simp only [runFromWaiting] at h
      exact Option.noConfusion h
  | succ fuel ih =>
    intro g w st r h
    cases w with
    | nil =>
      simp only [runFromWaiting, Option.some.injEq] at h
      subst h
      exact ⟨rfl, by simp, le_refl _, Or.inr ⟨rfl, rfl⟩⟩
    | cons node rest =>
      simp only [runFromWaiting] at h
      by_cases hacc : acceptingB ts ops g labels node = true
      · rw [if_pos hacc] at h
        simp only [Option.some.injEq] at h
        subst h
        exact ⟨rfl, by simp, by simp, Or.inl ⟨rfl, rfl⟩⟩
      · rw [if_neg hacc] at h
        obtain ⟨ps1, ps2, ps3⟩ := processSst_stats ops ins node
          (ts.next (ops.nodeState g node)) g rest
          { st with visitedStates := st.visitedStates + 1 }
        cases hrec : runFromWaiting ts ops ins labels fuel
            (processSst ops ins node g rest
              { st with visitedStates := st.visitedStates + 1 }
              (ts.next (ops.nodeState g node))).graph
            (processSst ops ins node g rest
              { st with visitedStates := st.visitedStates + 1 }
              (ts.next (ops.nodeState g node))).waiting
            (processSst ops ins node g rest
              { st with visitedStates := st.visitedStates + 1 }
              (ts.next (ops.nodeState g node))).stats with
        | none => rw [hrec] at h; exact absurd h (by simp)
        | some r2 =>
          rw [hrec] at h
          simp only [Option.some.injEq] at h
          subst h
          obtain ⟨ih1, ih2, ih3, ih4⟩ := ih _ _ _ _ hrec
          refine ⟨ih1, ?_, ?_, ?_⟩
          · rw [ih2, ps1]
            simp only [List.length_cons]
            omega
          · calc st.visitedTransitions
                ≤ st.visitedTransitions +
                    (ts.next (ops.nodeState g node)).length := by omega
              _ = (processSst ops ins node g rest
                    { st with visitedStates := st.visitedStates + 1 }
                    (ts.next (ops.nodeState g node))).stats.visitedTransitions := ps2.symm
              _ ≤ r2.stats.visitedTransitions := ih3
          · cases ih4 with
            | inl hl => exact Or.inl hl
            | inr hr => exact Or.inr ⟨hr.1.trans ps3, hr.2⟩

lemma runFromWaiting_no_accept (ts : TSys S T) (ops : GraphOps G S T)
    (ins : List Nat → Nat → List Nat) (labels : List Nat)
    (hnone : ∀ (g : G) (n : Nat), acceptingB ts ops g labels n = false) :
    ∀ (fuel : Nat) (g : G) (w : List Nat) (st : Stats) (r : RunResult G),
      runFromWaiting ts ops ins labels fuel g w st = some r →
      r.finalsMarked = [] ∧ r.stats.reachable = st.reachable := by
  intro fuel
  induction fuel with
  | zero =>
    intro g w st r h
    cases w with
    | nil =>
      simp only [runFromWaiting, Option.some.injEq] at h
      subst h
      exact ⟨rfl, rfl⟩
    | cons node rest =>
      simp only [runFromWaiting] at h
      exact Option.noConfusion h
  | succ fuel ih =>
    intro g w st r h
    cases w with
    | nil =>
      simp only [runFromWaiting, Option.some.injEq] at h
      subst h
      exact ⟨rfl, rfl⟩
    | cons node rest =>
      simp only [runFromWaiting] at h
      rw [if_neg (by rw [hnone g node]; simp)] at h
      obtain ⟨_, _, ps3⟩ := processSst_stats ops ins node
        (ts.next (ops.nodeState g node)) g rest
        { st with visitedStates := st.visitedStates + 1 }
      cases hrec : runFromWaiting ts ops ins labels fuel
          (processSst ops ins node g rest
            { st with visitedStates := st.visitedStates + 1 }
            (ts.next (ops.nodeState g node))).graph
          (processSst ops ins node g rest
            { st with visitedStates := st.visitedStates + 1 }
            (ts.next (ops.nodeState g node))).waiting
          (processSst ops ins node g rest
            { st with visitedStates := st.visitedStates + 1 }
            (ts.next (ops.nodeState g node))).stats with
      | none => rw [hrec] at h; exact absurd h (by simp)
      | some r2 =>
        rw [hrec] at h
        simp only [Option.some.injEq] at h
        subst h
        obtain ⟨ih1, ih2⟩ := ih _ _ _ _ hrec
        exact ⟨ih1, ih2.trans ps3⟩

/-- Claim C1: for every transition system, graph, non-empty label set and
waiting list, when the driver pops a node that is accepting (labels non-empty,
labels a subset of the node's labels, the node a valid final state), it sets
the node's final flag, sets `reachable` to true, stops exploring (the
accepting node's successors are never computed and no further node is
popped), and the waiting list is empty when the run returns. -/
theorem claim_C1_accepting_stops (ts : TSys S T) (ops : GraphOps G S T)
    (ins : List Nat → Nat → List Nat) (labels : List Nat) (g : G)
    (node : Nat) (rest : List Nat) (st : Stats) (fuel : Nat)
    (hne : noneB labels = false)
    (hsub : subsetB labels (ts.labels (ops.nodeState g node)) = true)
    (hfin : ts.isValidFinal (ops.nodeState g node) = true) :
    runFromWaiting ts ops ins labels (fuel + 1) g (node :: rest) st =
      some ⟨ops.setFinal g node,
        ⟨st.visitedStates + 1, st.visitedTransitions, true⟩,
        [], [node], [], [node]⟩ := by
  have hacc : acceptingB ts ops g labels node = true := by
    unfold acceptingB
    rw [hne, hsub, hfin]
    rfl
  simp only [runFromWaiting]
  rw [if_pos hacc]

end Driver

/-! ### A concrete transition system for the witnesses -/

/-- A tiny transition system over `Nat` states and `Nat` transitions:
state 0 steps to state 1; state 1 carries label 0 and is a valid final
state. -/
def tinyTS : TSys Nat Nat where
  initial := [(Status.OK, 0, 100)]
  next := fun s => if s = 0 then [(Status.OK, 1, 101)] else []
  labels := fun s => if s = 1 then [0] else []
  isValidFinal := fun _ => true

/-- FIFO insertion (BFS waiting policy): insert at the back. -/
def fifoIns (w : List Nat) (n : Nat) : List Nat := w ++ [n]

/-- The empty interning graph over `Nat` states and transitions. -/
def emptyGraphN : InternGraph Nat Nat := ⟨[], []⟩

/-- The interning graph holding exactly the two states 0 and 1 of
`tinyTS`. -/
def twoNodeGraphN : InternGraph Nat Nat :=
  ⟨[⟨0, false, false⟩, ⟨1, false, false⟩], []⟩

theorem claim_C1_accepting_stops_witness :
    (noneB [0] = false ∧
     subsetB [0] (tinyTS.labels ((internOps (S := Nat) (T := Nat)).nodeState twoNodeGraphN 1)) = true ∧
     tinyTS.isValidFinal ((internOps (S := Nat) (T := Nat)).nodeState twoNodeGraphN 1) = true) ∧
    runFromWaiting tinyTS internOps fifoIns [0] 3 twoNodeGraphN [1] ⟨0, 0, false⟩ =
      some ⟨(internOps (S := Nat) (T := Nat)).setFinal twoNodeGraphN 1, ⟨1, 0, true⟩,
        [], [1], [], [1]⟩ :=
  ⟨⟨by decide, by decide, by decide⟩,
   claim_C1_accepting_stops tinyTS internOps fifoIns [0] twoNodeGraphN 1 [] ⟨0, 0, false⟩ 2
     (by decide) (by decide) (by decide)⟩

/-- Claim C3: for every transition system and graph, if the label set is
empty then no node is ever accepting, so the run explores until the waiting
list is exhausted and returns with `reachable = false` and no node marked
final; and every completed run ends in exactly one of the two non-fatal
outcomes — `reachable = true` with exactly one final node, or
`reachable = false` with no final node. -/
theorem claim_C3_empty_labels_full_exploration {S T G : Type}
    (ts : TSys S T) (ops : GraphOps G S T) (ins : List Nat → Nat → List Nat)
    (fuel : Nat) (g : G) (w : List Nat) (st : Stats)
    (hst : st.reachable = false) :
    (∀ (g2 : G) (n : Nat), acceptingB ts ops g2 ([] : List Nat) n = false) ∧
    (∀ r : RunResult G, runFromWaiting ts ops ins [] fuel g w st = some r →
      r.stats.reachable = false ∧ r.finalsMarked = [] ∧ r.waiting = []) ∧
    (∀ (labels : List Nat) (fuel2 : Nat) (g2 : G) (w2 : List Nat) (st2 : Stats)
       (r : RunResult G), st2.reachable = false →
      runFromWaiting ts ops ins labels fuel2 g2 w2 st2 = some r →
      (r.stats.reachable = true ∧ r.finalsMarked.length = 1) ∨
      (r.stats.reachable = false ∧ r.finalsMarked = [])) := by
  have hnone : ∀ (g2 : G) (n : Nat), acceptingB ts ops g2 ([] : List Nat) n = false :=
    fun g2 n => rfl
  refine ⟨hnone, ?_, ?_⟩
  · intro r h
    obtain ⟨hfin, hreach⟩ :=
      runFromWaiting_no_accept ts ops ins [] hnone fuel g w st r h
    obtain ⟨hw, _, _, _⟩ := runFromWaiting_inv ts ops ins [] fuel g w st r h
    exact ⟨hreach.trans hst, hfin, hw⟩
  · intro labels fuel2 g2 w2 st2 r hst2 h
    obtain ⟨_, _, _, hd⟩ := runFromWaiting_inv ts ops ins labels fuel2 g2 w2 st2 r h
    cases hd with
    | inl hl => exact Or.inl hl
    | inr hr => exact Or.inr ⟨hr.1.trans hst2, hr.2⟩

theorem claim_C3_empty_labels_full_exploration_witness :
    ((⟨0, 0, false⟩ : Stats).reachable = false) ∧
    (∀ r : RunResult (InternGraph Nat Nat),
      runFromWaiting tinyTS internOps fifoIns [] 5 emptyGraphN [0] ⟨0, 0, false⟩ = some r →
      r.stats.reachable = false ∧ r.finalsMarked = [] ∧ r.waiting = []) :=
  ⟨rfl,
   (claim_C3_empty_labels_full_exploration tinyTS internOps fifoIns 5 emptyGraphN [0]
      ⟨0, 0, false⟩ rfl).2.1⟩

/-! ### Claim C2: the successor step -/

section SuccessorStep

variable {S T G : Type}

lemma processSst_spec (ops : GraphOps G S T) (ins : List Nat → Nat → List Nat)
    (node : Nat) :
    ∀ (sst : List (Status × S × T)) (g : G) (w : List Nat) (st : Stats),
      (processSst ops ins node g w st sst).pushed =
        ((processSst ops ins node g w st sst).recs.filter (fun q => q.isNew)).map
          (fun q => q.handle) ∧
      (processSst ops ins node g w st sst).edgesAdded =
        (processSst ops ins node g w st sst).recs.map (fun q => (node, q.handle, q.trans)) ∧
      (processSst ops ins node g w st sst).recs.map (fun q => (q.state, q.trans)) =
        sst.map (fun e => (e.2.1, e.2.2)) ∧
      (processSst ops ins node g w st sst).waiting =
        (processSst ops ins node g w st sst).pushed.foldl ins w := by
  intro sst
  induction sst with
  | nil => intro g w st; exact ⟨rfl, rfl, rfl, rfl⟩
  | cons e rest ih =>
    intro g w st
    obtain ⟨e1, s, t⟩ := e
    simp only [processSst]
    cases hnew : (ops.addNode g s).2.1 with
    | false =>
      obtain ⟨ih1, ih2, ih3, ih4⟩ :=
        ih (ops.addEdge (ops.addNode g s).1 node (ops.addNode g s).2.2 t) w
          { st with visitedTransitions := st.visitedTransitions + 1 }
      simp [hnew, ih1, ih2, ih3, ih4]
    | true =>
      obtain ⟨ih1, ih2, ih3, ih4⟩ :=
        ih (ops.addEdge (ops.addNode g s).1 node (ops.addNode g s).2.2 t)
          (ins w (ops.addNode g s).2.2)
          { st with visitedTransitions := st.visitedTransitions + 1 }
      simp [hnew, ih1, ih2, ih3, ih4]

lemma idxOf_append_of_some [DecidableEq S] (s : S) :
    ∀ (l l2 : List S) (i : Nat), idxOf s l = some i → idxOf s (l ++ l2) = some i := by
  intro l
  induction l with
  | nil => intro l2 i h; simp [idxOf] at h
  | cons x xs ih =>
    intro l2 i h
    by_cases hx : x = s
    · simp only [idxOf, if_pos hx] at h ⊢
      exact h
    · simp only [idxOf, if_neg hx, Option.map_eq_some'] at h ⊢
      obtain ⟨j, hj, hij⟩ := h
      exact ⟨j, ih l2 j hj, hij⟩

lemma idxOf_append_self [DecidableEq S] (s : S) :
    ∀ l : List S, idxOf s l = none → idxOf s (l ++ [s]) = some l.length := by
  intro l
  induction l with
  | nil => simp [idxOf]
  | cons x xs ih =>
    intro h
    by_cases hx : x = s
    · simp only [idxOf, if_pos hx] at h
      exact Option.noConfusion h
    · simp only [idxOf, if_neg hx, Option.map_eq_none'] at h
      simp only [List.cons_append, idxOf, if_neg hx, List.append_eq, ih h,
        Option.map_some', List.length_cons]

lemma internOps_addNode {S T : Type} [DecidableEq S] [Inhabited S] :
    (internOps (S := S) (T := T)).addNode = internAddNode := rfl

lemma internAddNode_spec [DecidableEq S] (g : InternGraph S T) (s : S) :
    (∃ ext : List S,
      (internAddNode g s).1.nodes.map NodeRec.state = g.nodes.map NodeRec.state ++ ext) ∧
    idxOf s ((internAddNode g s).1.nodes.map NodeRec.state) =
      some (internAddNode g s).2.2 ∧
    (internAddNode g s).1.edges = g.edges := by
  unfold internAddNode
  cases hidx : idxOf s (g.nodes.map NodeRec.state) with
  | some i => exact ⟨⟨[], by simp⟩, hidx, rfl⟩
  | none =>
    refine ⟨⟨[s], by simp⟩, ?_, rfl⟩
    simp only [List.map_append, List.map_cons, List.map_nil]
    have := idxOf_append_self s (g.nodes.map NodeRec.state) hidx
    rw [this]
    simp [List.length_map]

lemma processSst_intern_states [DecidableEq S] [Inhabited S]
    (ins : List Nat → Nat → List Nat) (node : Nat) :
    ∀ (sst : List (Status × S × T)) (g : InternGraph S T) (w : List Nat) (st : Stats),
      ∃ ext : List S,
        (processSst (internOps (S := S) (T := T)) ins node g w st sst).graph.nodes.map
            NodeRec.state =
          g.nodes.map NodeRec.state ++ ext := by
  intro sst
  induction sst with
  | nil => intro g w st; exact ⟨[], by simp [processSst]⟩
  | cons e rest ih =>
    intro g w st
    obtain ⟨e1, s, t⟩ := e
    simp only [processSst]
    obtain ⟨ext1, hext1⟩ := internAddNode_spec g s |>.1
    obtain ⟨ext2, hext2⟩ := ih _ _ _
    refine ⟨ext1 ++ ext2, ?_⟩
    rw [hext2]
    show ((internAddNode g s).1.nodes.map NodeRec.state) ++ ext2 = _
    rw [hext1, List.append_assoc]

lemma processSst_intern_recs [DecidableEq S] [Inhabited S]
    (ins : List Nat → Nat → List Nat) (node : Nat) :
    ∀ (sst : List (Status × S × T)) (g : InternGraph S T) (w : List Nat) (st : Stats),
      ∀ q ∈ (processSst (internOps (S := S) (T := T)) ins node g w st sst).recs,
        idxOf q.state
            ((processSst (internOps (S := S) (T := T)) ins node g w st sst).graph.nodes.map
              NodeRec.state) =
          some q.handle := by
  intro sst
  induction sst with
  | nil => intro g w st q hq; simp [processSst] at hq
  | cons e rest ih =>
    intro g w st q hq
    obtain ⟨e1, s, t⟩ := e
    simp only [processSst, internOps_addNode, List.mem_cons] at hq ⊢
    cases hq with
    | inl hq =>
      subst hq
      obtain ⟨_, hidx, _⟩ := internAddNode_spec g s
      obtain ⟨ext, hext⟩ := processSst_intern_states ins node rest
        ((internOps (S := S) (T := T)).addEdge (internAddNode g s).1 node
          (internAddNode g s).2.2 t)
        (if (internAddNode g s).2.1 = true then ins w (internAddNode g s).2.2 else w)
        { st with visitedTransitions := st.visitedTransitions + 1 }
      rw [hext]
      exact idxOf_append_of_some s _ ext _ hidx
    | inr hq => exact ih _ _ _ q hq

/-- Claim C2: in the driver's successor step over the interning graph, with
every emitted triple carrying status OK: `add_node` deduplicates (triples with
the same symbolic state get the same node handle); a node is pushed to the
waiting list exactly when `add_node` reports it as new; an edge from the
current node to the successor node is always added, also when the node
already existed; and `visited_transitions` is incremented once per emitted
triple. -/
theorem claim_C2_successor_step [DecidableEq S] [Inhabited S]
    (ins : List Nat → Nat → List Nat) (node : Nat) (g : InternGraph S T)
    (w : List Nat) (st : Stats) (sst : List (Status × S × T))
    (_hok : ∀ e ∈ sst, e.1 = Status.OK) :
    (processSst (internOps (S := S) (T := T)) ins node g w st sst).recs.map
        (fun q => (q.state, q.trans)) = sst.map (fun e => (e.2.1, e.2.2)) ∧
    (∀ q1 ∈ (processSst (internOps (S := S) (T := T)) ins node g w st sst).recs,
     ∀ q2 ∈ (processSst (internOps (S := S) (T := T)) ins node g w st sst).recs,
      q1.state = q2.state → q1.handle = q2.handle) ∧
    (processSst (internOps (S := S) (T := T)) ins node g w st sst).pushed =
      ((processSst (internOps (S := S) (T := T)) ins node g w st sst).recs.filter
        (fun q => q.isNew)).map (fun q => q.handle) ∧
    (processSst (internOps (S := S) (T := T)) ins node g w st sst).waiting =
      (processSst (internOps (S := S) (T := T)) ins node g w st sst).pushed.foldl ins w ∧
    (processSst (internOps (S := S) (T := T)) ins node g w st sst).edgesAdded =
      (processSst (internOps (S := S) (T := T)) ins node g w st sst).recs.map
        (fun q => (node, q.handle, q.trans)) ∧
    (processSst (internOps (S := S) (T := T)) ins node g w st sst).stats.visitedTransitions =
      st.visitedTransitions + sst.length := by
  obtain ⟨h1, h2, h3, h4⟩ := processSst_spec (internOps (S := S) (T := T)) ins node sst g w st
  obtain ⟨_, hvt, _⟩ :=
    processSst_stats (internOps (S := S) (T := T)) ins node sst g w st
  refine ⟨h3, ?_, h1, h4, h2, hvt⟩
  intro q1 hq1 q2 hq2 hstate
  have e1 := processSst_intern_recs ins node sst g w st q1 hq1
  have e2 := processSst_intern_recs ins node sst g w st q2 hq2
  rw [hstate] at e1
  rw [e1] at e2
  exact (Option.some.injEq _ _).mp e2

theorem claim_C2_successor_step_witness :
    ((∀ e ∈ [(Status.OK, 5, 100), (Status.OK, 5, 101)], e.1 = Status.OK)) ∧
    (∀ q1 ∈ (processSst (internOps (S := Nat) (T := Nat)) fifoIns 0 emptyGraphN [] ⟨0, 0, false⟩
              [(Status.OK, 5, 100), (Status.OK, 5, 101)]).recs,
     ∀ q2 ∈ (processSst (internOps (S := Nat) (T := Nat)) fifoIns 0 emptyGraphN [] ⟨0, 0, false⟩
              [(Status.OK, 5, 100), (Status.OK, 5, 101)]).recs,
      q1.state = q2.state → q1.handle = q2.handle) :=
  ⟨by decide,
   (claim_C2_successor_step fifoIns 0 emptyGraphN [] ⟨0, 0, false⟩
      [(Status.OK, 5, 100), (Status.OK, 5, 101)] (by decide)).2.1⟩

end SuccessorStep

/-! ### Claim C8: statistics (`src/algorithms/stats.cc`) -/

/-- The fields of `tchecker::algorithms::reach::stats_t` relevant to
`attributes`: the stringified wall-clock time and peak RSS of the base class,
and the reach-specific counters. -/
structure ReachStats where
  runningTimeStr : String
  maxRssStr : String
  visitedStates : Nat
  visitedTransitions : Nat
  reachable : Bool

/-- `m[key] = value` on a `std::map<std::string, std::string>`: replace the
binding of `key` if present, else append it. -/
def mapInsert : List (String × String) → String → String → List (String × String)
  | [], k, v => [(k, v)]
  | (k2, v2) :: rest, k, v =>
    if k2 = k then (k, v) :: rest else (k2, v2) :: mapInsert rest k v

/-- Lookup in a string map. -/
def mapLookup : List (String × String) → String → Option String
  | [], _ => none
  | (k2, v2) :: rest, k => if k2 = k then some v2 else mapLookup rest k

/-- `tchecker::algorithms::stats_t::attributes` from `stats.cc`: store the
stringified running time under `RUNNING_TIME_SECONDS` and the stringified
peak RSS under `MEMORY_MAX_RSS`. -/
def statsAttributes (rs : ReachStats) (m : List (String × String)) :
    List (String × String) :=
  mapInsert (mapInsert m "RUNNING_TIME_SECONDS" rs.runningTimeStr)
    "MEMORY_MAX_RSS" rs.maxRssStr

/-- Modelled from the spec: `tchecker::algorithms::reach::stats_t::attributes`
(`reach/stats.hh`/`.cc` are not part of the sources) calls the base-class
`attributes` and additionally exposes `VISITED_STATES`, `VISITED_TRANSITIONS`
and `REACHABLE`. -/
def reachStatsAttributes (rs : ReachStats) (m : List (String × String)) :
    List (String × String) :=
  mapInsert
    (mapInsert
      (mapInsert (statsAttributes rs m) "VISITED_STATES" (toString rs.visitedStates))
      "VISITED_TRANSITIONS" (toString rs.visitedTransitions))
    "REACHABLE" (if rs.reachable then "true" else "false")

lemma mapLookup_insert_self (m : List (String × String)) (k v : String) :
    mapLookup (mapInsert m k v) k = some v := by
  induction m with
  | nil => simp [mapInsert, mapLookup]
  | cons p rest ih =>
    obtain ⟨k2, v2⟩ := p
    by_cases hk : k2 = k
    · simp [mapInsert, mapLookup, hk]
    · simp only [mapInsert, if_neg hk, mapLookup]
      exact ih

lemma mapLookup_insert_ne (m : List (String × String)) (k k2 v : String)
    (h : k2 ≠ k) : mapLookup (mapInsert m k2 v) k = mapLookup m k := by
  induction m with
  | nil => simp [mapInsert, mapLookup, h]
  | cons p rest ih =>
    obtain ⟨k3, v3⟩ := p
    by_cases hk : k3 = k2
    · subst hk
      simp only [mapInsert, if_pos rfl, mapLookup]
      rw [if_neg h, if_neg h]
    · simp only [mapInsert, if_neg hk, mapLookup]
      by_cases hk3 : k3 = k
      · rw [if_pos hk3, if_pos hk3]
      · rw [if_neg hk3, if_neg hk3]
        exact ih

/-- Claim C8: the statistics object's `attributes` method populates the
string map with all five keys `RUNNING_TIME_SECONDS`, `MEMORY_MAX_RSS`,
`VISITED_STATES`, `VISITED_TRANSITIONS` and `REACHABLE`; and during a run the
counters are monotonically nondecreasing, `visited_states` being incremented
exactly once per popped node. -/
theorem claim_C8_stats_attributes_and_counters {S T G : Type}
    (ts : TSys S T) (ops : GraphOps G S T) (ins : List Nat → Nat → List Nat)
    (labels : List Nat) (rs : ReachStats) (m : List (String × String))
    (fuel : Nat) (g : G) (w : List Nat) (st : Stats) (r : RunResult G)
    (h : runFromWaiting ts ops ins labels fuel g w st = some r) :
    (mapLookup (reachStatsAttributes rs m) "RUNNING_TIME_SECONDS" =
      some rs.runningTimeStr) ∧
    (mapLookup (reachStatsAttributes rs m) "MEMORY_MAX_RSS" = some rs.maxRssStr) ∧
    (mapLookup (reachStatsAttributes rs m) "VISITED_STATES" =
      some (toString rs.visitedStates)) ∧
    (mapLookup (reachStatsAttributes rs m) "VISITED_TRANSITIONS" =
      some (toString rs.visitedTransitions)) ∧
    (mapLookup (reachStatsAttributes rs m) "REACHABLE" =
      some (if rs.reachable then "true" else "false")) ∧
    r.stats.visitedStates = st.visitedStates + r.popped.length ∧
    st.visitedTransitions ≤ r.stats.visitedTransitions := by
  obtain ⟨_, h2, h3, _⟩ := runFromWaiting_inv ts ops ins labels fuel g w st r h
  unfold reachStatsAttributes statsAttributes
  refine ⟨?_, ?_, ?_, ?_, ?_, h2, h3⟩
  · rw [mapLookup_insert_ne _ _ _ _ (by decide), mapLookup_insert_ne _ _ _ _ (by decide),
      mapLookup_insert_ne _ _ _ _ (by decide), mapLookup_insert_ne _ _ _ _ (by decide),
      mapLookup_insert_self]
  · rw [mapLookup_insert_ne _ _ _ _ (by decide), mapLookup_insert_ne _ _ _ _ (by decide),
      mapLookup_insert_ne _ _ _ _ (by decide), mapLookup_insert_self]
  · rw [mapLookup_insert_ne _ _ _ _ (by decide), mapLookup_insert_ne _ _ _ _ (by decide),
      mapLookup_insert_self]
  · rw [mapLookup_insert_ne _ _ _ _ (by decide), mapLookup_insert_self]
  · rw [mapLookup_insert_self]

theorem claim_C8_stats_attributes_and_counters_witness :
    (runFromWaiting tinyTS internOps fifoIns [] 2 emptyGraphN [] ⟨0, 0, false⟩ =
      some ⟨emptyGraphN, ⟨0, 0, false⟩, [], [], [], []⟩) ∧
    mapLookup (reachStatsAttributes ⟨"0.1", "1000", 3, 4, false⟩ []) "REACHABLE" =
      some "false" :=
  ⟨rfl,
   by
    have h := claim_C8_stats_attributes_and_counters tinyTS internOps fifoIns []
      ⟨"0.1", "1000", 3, 4, false⟩ [] 2 emptyGraphN [] ⟨0, 0, false⟩
      ⟨emptyGraphN, ⟨0, 0, false⟩, [], [], [], []⟩ rfl
    exact h.2.2.2.2.1⟩

/-! ### Claim C9: the seeding phase of `run` -/

section Seeding

variable {S T G : Type}

lemma seed_spec (ops : GraphOps G S T) (ins : List Nat → Nat → List Nat) :
    ∀ (sst : List (Status × S × T)) (g : G) (w : List Nat),
      (seed ops ins g w sst).marked = (seed ops ins g w sst).recs.map (fun p => p.1) ∧
      (seed ops ins g w sst).pushed =
        ((seed ops ins g w sst).recs.filter (fun p => p.2)).map (fun p => p.1) ∧
      (seed ops ins g w sst).waiting = (seed ops ins g w sst).pushed.foldl ins w ∧
      (seed ops ins g w sst).recs.length = sst.length := by
  intro sst
  induction sst with
  | nil => intro g w; exact ⟨rfl, rfl, rfl, rfl⟩
  | cons e rest ih =>
    intro g w
    obtain ⟨e1, s, t⟩ := e
    simp only [seed]
    cases hnew : (ops.addNode g s).2.1 with
    | false =>
      obtain ⟨ih1, ih2, ih3, ih4⟩ :=
        ih (ops.setInitial (ops.addNode g s).1 (ops.addNode g s).2.2) w
      simp [hnew, ih1, ih2, ih3, ih4]
    | true =>
      obtain ⟨ih1, ih2, ih3, ih4⟩ :=
        ih (ops.setInitial (ops.addNode g s).1 (ops.addNode g s).2.2)
          (ins w (ops.addNode g s).2.2)
      simp [hnew, ih1, ih2, ih3, ih4]

/-- Claim C9: in `algorithm_t::run`, for every initial state emitted by
`ts.initial`, the node returned by `graph.add_node` gets its initial flag set
(the driver marks every returned handle, whether the node is new or was
already in the graph), while only newly created nodes are pushed to the
waiting list; and `run` continues with the seeded graph and waiting list and
fresh statistics. -/
theorem claim_C9_seeding_marks_all_pushes_new (ts : TSys S T) (ops : GraphOps G S T)
    (ins : List Nat → Nat → List Nat) (labels : List Nat) (fuel : Nat)
    (g : G) (w : List Nat) (sst : List (Status × S × T)) :
    (seed ops ins g w sst).marked = (seed ops ins g w sst).recs.map (fun p => p.1) ∧
    (seed ops ins g w sst).pushed =
      ((seed ops ins g w sst).recs.filter (fun p => p.2)).map (fun p => p.1) ∧
    (seed ops ins g w sst).waiting = (seed ops ins g w sst).pushed.foldl ins w ∧
    (seed ops ins g w sst).recs.length = sst.length ∧
    run ts ops ins labels fuel g =
      runFromWaiting ts ops ins labels fuel (seed ops ins g [] ts.initial).graph
        (seed ops ins g [] ts.initial).waiting ⟨0, 0, false⟩ := by
  obtain ⟨h1, h2, h3, h4⟩ := seed_spec ops ins sst g w
  exact ⟨h1, h2, h3, h4, rfl⟩

end Seeding

end CTChecker
